import Mathlib

/-!
Verification of the categorization-and-timeline-assembly pipeline of
`categorize_parse_spechistory.py`.

Python strings are modelled as `List Char` (sequences of code points);
`str.lower()` / `str.title()` are modelled with ASCII case mapping
(`Char.toLower` / `Char.toUpper`), which coincides with Python on the
ASCII range relevant here.  Timestamps are modelled as seconds since
0001-01-01 (proleptic Gregorian, matching `datetime.toordinal`); the
pipeline's ISO-8601 UTC strings of the fixed shape
`YYYY-MM-DDTHH:MM:00Z` are ordered exactly as these integers, so the
string sort key of the source is represented by the integer field.
`round(x, 1)` on floats is modelled as exact rational
round-half-to-even at one decimal.
-/

namespace SpecHistory

/-- A Python string, as a list of code points. -/
abbrev Str := List Char

/-- Model of `str.lower()` (ASCII case mapping). -/
def pyLower (s : Str) : Str := s.map Char.toLower

/-- Boolean test that the first list is an initial segment of the second. -/
def leadsB : Str → Str → Bool
  | [], _ => true
  | _ :: _, [] => false
  | a :: as, b :: bs => a == b && leadsB as bs

/-- Model of Python's substring containment test `needle in haystack`. -/
def isSubB (n : Str) : Str → Bool
  | [] => leadsB n []
  | b :: bs => leadsB n (b :: bs) || isSubB n bs

/-- One entry of the `self.categories` table of `SpecHistoryParser.__init__`:
a category name, its keyword list, display color and priority rank. -/
structure CatInfo where
  name : String
  keywords : List Str
  color : String
  priority : Nat
deriving Repr, DecidableEq

/-- The `self.categories` table, in its Python insertion order
(`plan, codegen, refactor, debug, feature, review, meta, config`). -/
def categories : List CatInfo :=
  [ { name := "plan"
    , keywords := [ "how to".data, "approach".data, "strategy".data, "plan".data
                  , "design".data, "architecture".data, "finding".data ]
    , color := "#3B82F6", priority := 1 }
  , { name := "codegen"
    , keywords := [ "create".data, "implement".data, "add".data, "build".data
                  , "integrate".data, "generate".data, "construct".data ]
    , color := "#10B981", priority := 2 }
  , { name := "refactor"
    , keywords := [ "refactor".data, "improve".data, "clean".data, "organize".data
                  , "reorganize".data, "rename".data, "move".data ]
    , color := "#8B5CF6", priority := 3 }
  , { name := "debug"
    , keywords := [ "error".data, "why".data, "issue".data, "fix".data
                  , "fixing".data, "bug".data, "problem".data, "syntax error".data ]
    , color := "#F59E0B", priority := 4 }
  , { name := "feature"
    , keywords := [ "change".data, "update".data, "allow".data, "adjust".data
                  , "selecting".data, "trigger".data, "show".data ]
    , color := "#EC4899", priority := 5 }
  , { name := "review"
    , keywords := [ "understanding".data, "what".data, "explain".data
                  , "critique".data, "code review".data ]
    , color := "#F97316", priority := 6 }
  , { name := "meta"
    , keywords := [ "commit".data, "git".data, "merge".data, "abort".data, "branch".data ]
    , color := "#6366F1", priority := 7 }
  , { name := "config"
    , keywords := [ "input".data, "parameter".data, "requirements".data
                  , "settings".data, "configure".data ]
    , color := "#06B6D4", priority := 8 }
  ]

/-- Score of one keyword in `categorize_session`: 0 when absent from the
combined lowercase text, otherwise 3 when the keyword occurs in the
lowercase title and 1 otherwise. -/
def scoreKeyword (textL titleL : Str) (kw : Str) : Nat :=
  if isSubB kw textL then (if isSubB kw titleL then 3 else 1) else 0

/-- Per-category score of `categorize_session`: the sum of the keyword
scores over the category's keyword list, scanning
`f"\x7btitle\x7d \x7bcontent\x7d".lower()`. -/
def catScore (title content : Str) (kws : List Str) : Nat :=
  (kws.map (scoreKeyword (pyLower (title ++ ' ' :: content)) (pyLower title))).sum

/-- The `scores` dict of `categorize_session`, as an association list in
category insertion order. -/
def scoresList (title content : Str) : List (String × Nat) :=
  categories.map (fun ci => (ci.name, catScore title content ci.keywords))

/-- Model of Python `max(scores.values())` (with 0 as base; all scores
are nonnegative and the list is nonempty, so this is the same value). -/
def maxVal (l : List (String × Nat)) : Nat :=
  l.foldl (fun m p => max m p.2) 0

/-- One comparison step of Python `max(..., key=...)`: keep the current
best unless the next entry's score strictly exceeds it. -/
def pickMax (best q : String × Nat) : String × Nat :=
  if q.2 > best.2 then q else best

/-- Model of Python `max(scores, key=scores.get)` together with its score:
the first entry, in iteration order, whose score no later entry strictly
exceeds.  Python's `max` keeps the first-encountered maximum. -/
def pyMaxFirst : List (String × Nat) → String × Nat
  | [] => ( "", 0)
  | p :: ps => ps.foldl pickMax p

/-- Model of `SpecHistoryParser.categorize_session`: returns the
`(category, confidence)` pair. -/
def categorize_session (title content : Str) : String × String :=
  let scores := scoresList title content
  if maxVal scores > 0 then
    let best := pyMaxFirst scores
    ( best.1
    , if best.2 ≥ 3 then "high" else if best.2 ≥ 1 then "medium" else "low" )
  else
    ( "codegen", "low")

/-- The per-category scores exactly as the spec's scoring sentence words
them: a keyword occurring within the (lowercase) title contributes 3
points, otherwise a keyword occurring anywhere in the lowercase
concatenation of title and content contributes 1 point, not additively.
To be compared with `scoresList`, which is translated from the code. -/
def claimScores (title content : Str) : List (String × Nat) :=
  categories.map (fun ci =>
    (ci.name, (ci.keywords.map (fun kw =>
      if isSubB kw (pyLower title) then 3
      else if isSubB kw (pyLower (title ++ ' ' :: content)) then 1 else 0)).sum))

/-- Record assembled per input transcript in `parse_all_files`.
`startTime` is the session timestamp in epoch seconds; the source's
ISO-8601 UTC strings of the fixed shape `YYYY-MM-DDTHH:MM:00Z` compare
lexicographically exactly as these integers compare, so the string sort
key of the source is represented faithfully.  `duration` is 0 until
`calculate_durations` assigns it, as in the source where the key is
absent until that point. -/
structure Session where
  category : String
  title : Str
  startTime : Int
  confidence : String
  filename : Str
  preview : Str
  duration : Int := 0
deriving Repr, DecidableEq, Inhabited

/-- Sort key of `calculate_durations`: ascending `startTime`. -/
def byStart (a b : Session) : Prop := a.startTime ≤ b.startTime

instance : DecidableRel byStart := fun a b => Int.decLe a.startTime b.startTime

instance : IsTotal Session byStart := ⟨fun a b => Int.le_total a.startTime b.startTime⟩

instance : IsTrans Session byStart := ⟨fun _ _ _ hab hbc => le_trans hab hbc⟩

/-- The duration-assignment loop of `calculate_durations`, on the sorted
list: every record but the last gets
`min(int((next.startTime - cur.startTime).total_seconds() / 60), 240)`
(`Int.tdiv` models Python's `int()` truncation toward zero of the exact
seconds-to-minutes quotient), and the last record gets 30. -/
def assignDurations : List Session → List Session
  | [] => []
  | [s] => [ { s with duration := 30 } ]
  | s :: s' :: rest =>
    { s with duration := min ((s'.startTime - s.startTime).tdiv 60) 240 }
      :: assignDurations (s' :: rest)

/-- Model of `SpecHistoryParser.calculate_durations`: stable sort
ascending by `startTime` (Python's `sorted` and `insertionSort` are both
stable, hence extensionally equal), then assign durations. -/
def calculate_durations (ss : List Session) : List Session :=
  assignDurations (List.insertionSort byStart ss)

/-- Round-half-to-even on an exact rational, modelling Python's `round`
applied to the quotient (the source rounds the IEEE double; no claim
depends on the value at rounding boundaries). -/
def roundHalfEven (x : ℚ) : ℤ :=
  let n := ⌊x⌋
  if x - n < 1/2 then n
  else if 1/2 < x - n then n + 1
  else if n % 2 == 0 then n else n + 1

/-- Model of `round(x, 1)`. -/
def pyRound1 (x : ℚ) : ℚ := (roundHalfEven (10 * x) : ℚ) / 10

/-- The percentage expression of `parse_all_files`, including its
division-by-zero guard `if total_duration > 0 else 0`. -/
def pctOf (total dur : Int) : ℚ :=
  if total > 0 then pyRound1 ((dur : ℚ) / (total : ℚ) * 100) else 0

/-- One value of the `category_stats` mapping of `parse_all_files`. -/
structure CatStats where
  duration : Int
  percentage : ℚ
  sessions : Nat
  color : String
deriving Repr, DecidableEq

/-- `total_duration = sum(s["duration"] for s in sessions)`. -/
def total_duration (ss : List Session) : Int := (ss.map Session.duration).sum

/-- `cat_duration = sum(s["duration"] for s in cat_sessions)`: the
summed duration of the sessions filtered to one category. -/
def catDuration (ss : List Session) (n : String) : Int :=
  ((ss.filter (fun s => s.category == n)).map Session.duration).sum

/-- One iteration of the `category_stats` loop of `parse_all_files`:
filter the sessions of the category; emit an entry only when the
filtered list is nonempty. -/
def catStatsEntry (ss : List Session) (total : Int) (ci : CatInfo) :
    Option (String × CatStats) :=
  if (ss.filter (fun s => s.category == ci.name)).isEmpty then none
  else some ( ci.name
            , { duration := catDuration ss ci.name
              , percentage := pctOf total (catDuration ss ci.name)
              , sessions := (ss.filter (fun s => s.category == ci.name)).length
              , color := ci.color })

/-- The `category_stats` mapping of `parse_all_files`, in category
table order. -/
def category_stats (ss : List Session) : List (String × CatStats) :=
  categories.filterMap (catStatsEntry ss (total_duration ss))

/-- The timestamp extracted by `parse_filename`, before conversion to
epoch seconds. -/
structure PDateTime where
  year : Nat
  month : Nat
  day : Nat
  hour : Nat
  minute : Nat
deriving Repr, DecidableEq

/-- Gregorian leap-year test, as in Python's `datetime`. -/
def isLeap (y : Nat) : Bool := (y % 4 == 0 && y % 100 != 0) || y % 400 == 0

/-- Length of month `m` (1-12). -/
def monthLen (leap : Bool) (m : Nat) : Nat :=
  if m == 2 then (if leap then 29 else 28)
  else if m == 4 || m == 6 || m == 9 || m == 11 then 30 else 31

/-- Days in the year strictly before month `m`. -/
def daysBeforeMonth (leap : Bool) (m : Nat) : Nat :=
  ((List.range' 1 (m - 1)).map (monthLen leap)).sum

/-- Proleptic-Gregorian ordinal of a date, with 0001-01-01 as day 1,
matching Python's `date.toordinal`. -/
def toOrdinal (y m d : Nat) : Nat :=
  365 * (y - 1) + (y - 1) / 4 - (y - 1) / 100 + (y - 1) / 400
    + daysBeforeMonth (isLeap y) m + d

/-- Epoch-seconds value of a parsed UTC timestamp; an order-isomorphic
representation of the `datetime` values the source subtracts and of the
ISO strings it sorts by. -/
def toEpochSeconds (dt : PDateTime) : Int :=
  ((((toOrdinal dt.year dt.month dt.day) * 24 + dt.hour) * 60 + dt.minute) * 60 : Nat)

/-- Field validation performed by `datetime.fromisoformat` on the string
`YYYY-MM-DDTHH:MM:00+00:00` built by `parse_filename` (year 0 is below
`datetime.MINYEAR` and rejected; the regex caps the year at 9999). -/
def validDT (y mo d h mi : Nat) : Bool :=
  decide (1 ≤ y) && decide (1 ≤ mo) && decide (mo ≤ 12)
    && decide (1 ≤ d) && decide (d ≤ monthLen (isLeap y) mo)
    && decide (h ≤ 23) && decide (mi ≤ 59)

/-- Numeric value of a digit string. -/
def digitsVal (cs : Str) : Nat := cs.foldl (fun a c => a * 10 + (c.toNat - 48)) 0

/-- The fixed-shape left part of the `parse_filename` regex
`(\d\x7b4\x7d-\d\x7b2\x7d-\d\x7b2\x7d)_(\d\x7b2\x7d-\d\x7b2\x7d)Z-`:
four digit groups separated as in the pattern, then `Z-`, returning the
numeric fields and the unconsumed remainder.  `Char.isDigit` models
`\d` on the ASCII range. -/
def matchFixed : Str → Option (Nat × Nat × Nat × Nat × Nat × Str)
  | y1 :: y2 :: y3 :: y4 :: '-' :: m1 :: m2 :: '-' :: d1 :: d2 :: '_' ::
      h1 :: h2 :: '-' :: n1 :: n2 :: 'Z' :: '-' :: rest =>
    if y1.isDigit && y2.isDigit && y3.isDigit && y4.isDigit
        && m1.isDigit && m2.isDigit && d1.isDigit && d2.isDigit
        && h1.isDigit && h2.isDigit && n1.isDigit && n2.isDigit then
      some ( digitsVal [y1, y2, y3, y4], digitsVal [m1, m2], digitsVal [d1, d2]
           , digitsVal [h1, h2], digitsVal [n1, n2], rest)
    else none
  | _ => none

/-- Index of the first newline in `r`, or `r.length` when none: the
furthest the regex's `.+` group may reach, since `.` does not match a
newline. -/
def firstNLIdx (r : Str) : Nat :=
  match r.findIdx? (fun c => c == '\n') with
  | some i => i
  | none => r.length

/-- The greedy `(.+)\.md` tail of the `parse_filename` regex, applied by
`re.match` without an end anchor: the slug is the longest nonempty
newline-free initial segment of the remainder that is immediately
followed by `.md`; anything after that `.md` is ignored. -/
def slugSplit (r : Str) : Option Str :=
  (((List.range (Nat.min (firstNLIdx r) (r.length - 3) + 1)).reverse).find?
      (fun p => decide (1 ≤ p) && ((r.drop p).take 3 == ".md".data))).map
    (fun p => r.take p)

/-- Model of Python `str.title()` on the ASCII range: an alphabetic
character is uppercased after a non-alphabetic character (or at the
start) and lowercased after an alphabetic one; other characters pass
through. -/
def pyTitleAux : Bool → Str → Str
  | _, [] => []
  | prev, ch :: rest =>
    if ch.isAlpha then
      (if prev then ch.toLower else ch.toUpper) :: pyTitleAux true rest
    else ch :: pyTitleAux false rest

/-- `slug.title()`. -/
def pyTitle (s : Str) : Str := pyTitleAux false s

/-- Model of `SpecHistoryParser.parse_filename`: regex match (prefix
match, no end anchor), then `datetime.fromisoformat` on the rebuilt
colon-separated UTC string (which only validates the fields), then
dash-to-space and title-casing of the slug.  The `Except.error` cases
are the `ValueError`s the source raises. -/
def parse_filename (filename : Str) : Except String (PDateTime × Str) :=
  match matchFixed filename with
  | none => Except.error "Invalid filename format"
  | some (y, mo, d, h, mi, rest) =>
    match slugSplit rest with
    | none => Except.error "Invalid filename format"
    | some slug =>
      if validDT y mo d h mi then
        Except.ok ( { year := y, month := mo, day := d, hour := h, minute := mi }
                  , pyTitle (slug.map (fun ch => if ch == '-' then ' ' else ch)))
      else Except.error "Invalid isoformat string"

/-- The filename pattern as the spec sentence states it, anchored at
both ends: the fixed date/time part, then a nonempty slug, then a final
literal `.md` ending the filename.  To be compared with
`parse_filename`, which is translated from the code. -/
def specPatternMatch (filename : Str) : Bool :=
  match matchFixed filename with
  | none => false
  | some (_, _, _, _, _, rest) =>
    decide (3 < rest.length) && ((rest.drop (rest.length - 3)) == ".md".data)

/-- The three-field structured response of the external classifier after
strict-JSON parsing and key validation. -/
structure AiData where
  category : String
  title : Str
  preview : Str
deriving Repr, DecidableEq

/-- A strict-JSON response object, each of the three expected keys
possibly missing. -/
structure AiJson where
  categoryField : Option String
  titleField : Option Str
  previewField : Option Str
deriving Repr, DecidableEq

/-- The validation tail of `_categorize_with_openai`: require all of
`category`, `title`, `preview`; coerce a category outside the fixed
table to `codegen`. -/
def normalize_ai (j : AiJson) : Option AiData :=
  match j.categoryField, j.titleField, j.previewField with
  | some cat, some ti, some pv =>
    some { category := if cat ∈ categories.map CatInfo.name then cat else "codegen"
         , title := ti
         , preview := pv }
  | _, _, _ => none

/-- The keyword-path preview of `parse_all_files`:
`content[:117] + "..." if len(content) > 120 else content`. -/
def keywordPreview (content : Str) : Str :=
  if content.length > 120 then content.take 117 ++ "...".data else content

/-- The per-source session assembly of `parse_all_files`: on an external
classifier result, its category, title and preview are used verbatim
with confidence `high`; otherwise the keyword path supplies category,
confidence and truncated preview. -/
def assembleSession (fname : Str) (ts : Int) (title content : Str)
    (ai : Option AiData) : Session :=
  match ai with
  | some d =>
    { category := d.category, title := d.title, startTime := ts
    , confidence := "high", filename := fname, preview := d.preview }
  | none =>
    { category := (categorize_session title content).1, title := title, startTime := ts
    , confidence := (categorize_session title content).2, filename := fname
    , preview := keywordPreview content }

/-- One iteration of the per-file loop of `parse_all_files`: a filename
failing `parse_filename` is skipped (the `except` branch); `ai` is the
external classifier viewed as a function of the request fields the
source sends (filename, timestamp, content). -/
def assemble (ai : Str → Int → Str → Option AiData) (fname content : Str) :
    Option Session :=
  match parse_filename fname with
  | Except.error _ => none
  | Except.ok (dt, title) =>
    some (assembleSession fname (toEpochSeconds dt) title content
      (ai fname (toEpochSeconds dt) content))

/-- The output document of `parse_all_files`, without the wall-clock
`generated` field (pure data only). -/
structure Timeline where
  sessions : List Session
  totalDuration : Int
  categories : List (String × CatStats)
  totalSessions : Nat
  timeStart : Option Int
  timeEnd : Option Int
deriving Repr, DecidableEq

/-- Model of `SpecHistoryParser.parse_all_files` on the ordered
sequence of `(filename, extracted content)` pairs supplied by the
directory-listing collaborator and `read_file_content`. -/
def parse_all_files (ai : Str → Int → Str → Option AiData)
    (inputs : List (Str × Str)) : Timeline :=
  let ss := calculate_durations (inputs.filterMap (fun fc => assemble ai fc.1 fc.2))
  { sessions := ss
  , totalDuration := total_duration ss
  , categories := category_stats ss
  , totalSessions := ss.length
  , timeStart := ss.head?.map Session.startTime
  , timeEnd := ss.getLast?.map Session.startTime }

/-! Example sessions used by concrete instantiations below: two sessions
45 minutes apart, as in the spec's duration scenario. -/

/-- A session starting at 09:00 (seconds of day). -/
def exA : Session :=
  { category := "plan", title := [], startTime := 540 * 60
  , confidence := "high", filename := [], preview := [] }

/-- A session starting at 09:45 (seconds of day). -/
def exB : Session :=
  { category := "debug", title := [], startTime := 585 * 60
  , confidence := "high", filename := [], preview := [] }

/-- A 130-character content string. -/
def longContent : Str := List.replicate 130 'x'

/-- A session with its duration field reset: `calculate_durations`
changes nothing else, so permutation statements compare this
projection. -/
def eraseDur (s : Session) : Session := { s with duration := 0 }

/-! Lemmas about the maximum and Python's first-seen `max`. -/

theorem foldl_max_eq (l : List (String × Nat)) (a : Nat) :
    l.foldl (fun m p => max m p.2) a
      = max a (l.foldl (fun m p => max m p.2) 0) := by
  induction l generalizing a with
  | nil => simp only [List.foldl]; omega
  | cons p ps ih =>
    simp only [List.foldl]
    rw [ih (max a p.2), ih (max 0 p.2)]
    omega

theorem maxVal_cons (p : String × Nat) (ps : List (String × Nat)) :
    maxVal (p :: ps) = max p.2 (maxVal ps) := by
  simp only [maxVal, List.foldl]
  rw [foldl_max_eq]
  omega

theorem le_maxVal_of_mem {l : List (String × Nat)} {p : String × Nat}
    (h : p ∈ l) : p.2 ≤ maxVal l := by
  induction l with
  | nil => cases h
  | cons q qs ih =>
    rw [maxVal_cons]
    rcases List.mem_cons.mp h with h1 | h2
    · subst h1; omega
    · have := ih h2; omega

theorem pickMax_snd (b q : String × Nat) : (pickMax b q).2 = max b.2 q.2 := by
  unfold pickMax; split <;> omega

theorem foldl_pickMax_snd (l : List (String × Nat)) (b : String × Nat) :
    (l.foldl pickMax b).2 = max b.2 (maxVal l) := by
  induction l generalizing b with
  | nil => simp only [List.foldl, maxVal]; omega
  | cons p ps ih =>
    simp only [List.foldl]
    rw [ih, maxVal_cons, pickMax_snd]
    omega

theorem foldl_pickMax_mem (l : List (String × Nat)) (b : String × Nat) :
    l.foldl pickMax b = b ∨ l.foldl pickMax b ∈ l := by
  induction l generalizing b with
  | nil => left; rfl
  | cons p ps ih =>
    simp only [List.foldl]
    rcases ih (pickMax b p) with h | h
    · rw [h]; unfold pickMax; split
      · right; exact List.mem_cons_self _ _
      · left; rfl
    · right; exact List.mem_cons_of_mem _ h

theorem foldl_pickMax_fix (l : List (String × Nat)) (b : String × Nat)
    (h : maxVal l ≤ b.2) : l.foldl pickMax b = b := by
  induction l generalizing b with
  | nil => rfl
  | cons p ps ih =>
    rw [maxVal_cons] at h
    simp only [List.foldl]
    have hp : pickMax b p = b := by
      unfold pickMax; rw [if_neg (by omega : ¬ p.2 > b.2)]
    rw [hp]
    exact ih b (by omega)

theorem find?_first_max :
    ∀ (l : List (String × Nat)) (b : String × Nat) (M : Nat),
      maxVal l = M → b.2 < M →
      l.find? (fun p => decide (M ≤ p.2)) = some (l.foldl pickMax b) := by
  intro l
  induction l with
  | nil =>
    intro b M hM hb
    simp only [maxVal, List.foldl] at hM
    omega
  | cons p ps ih =>
    intro b M hM hb
    rw [maxVal_cons] at hM
    by_cases hp : M ≤ p.2
    · rw [List.find?_cons_of_pos _ (by simpa using hp)]
      simp only [List.foldl]
      have h1 : pickMax b p = p := by
        unfold pickMax; rw [if_pos (by omega : p.2 > b.2)]
      rw [h1, foldl_pickMax_fix ps p (by omega)]
    · rw [List.find?_cons_of_neg _ (by simpa using hp)]
      simp only [List.foldl]
      exact ih (pickMax b p) M (by omega) (by rw [pickMax_snd]; omega)

theorem find?_pyMaxFirst (l : List (String × Nat)) (h : 0 < maxVal l) :
    l.find? (fun p => decide (maxVal l ≤ p.2)) = some (pyMaxFirst l) := by
  cases l with
  | nil => simp only [maxVal, List.foldl] at h; omega
  | cons s rest =>
    have hc := maxVal_cons s rest
    by_cases hs : maxVal (s :: rest) ≤ s.2
    · rw [List.find?_cons_of_pos _ (by simpa using hs)]
      simp only [pyMaxFirst]
      rw [foldl_pickMax_fix rest s (by omega)]
    · rw [List.find?_cons_of_neg _ (by simpa using hs)]
      simp only [pyMaxFirst]
      exact find?_first_max rest s (maxVal (s :: rest)) (by omega) (by omega)

theorem pyMaxFirst_snd (s : String × Nat) (rest : List (String × Nat)) :
    (pyMaxFirst (s :: rest)).2 = maxVal (s :: rest) := by
  simp only [pyMaxFirst]
  rw [foldl_pickMax_snd, maxVal_cons]

theorem pyMaxFirst_mem (s : String × Nat) (rest : List (String × Nat)) :
    pyMaxFirst (s :: rest) ∈ s :: rest := by
  simp only [pyMaxFirst]
  rcases foldl_pickMax_mem rest s with h | h
  · rw [h]; exact List.mem_cons_self _ _
  · exact List.mem_cons_of_mem _ h

theorem find?_congr_mem {α : Type} {l : List α} {p q : α → Bool}
    (h : ∀ x ∈ l, p x = q x) : l.find? p = l.find? q := by
  induction l with
  | nil => rfl
  | cons a as ih =>
    have ha := h a (List.mem_cons_self a as)
    cases hq : q a with
    | false =>
      rw [List.find?_cons_of_neg _ (by rw [ha, hq]; simp),
          List.find?_cons_of_neg _ (by rw [hq]; simp)]
      exact ih (fun x hx => h x (List.mem_cons_of_mem _ hx))
    | true =>
      rw [List.find?_cons_of_pos _ (by rw [ha, hq]),
          List.find?_cons_of_pos _ hq]

/-! Substring lemmas: containment is preserved by extending the
haystack on the right, so a keyword found in the lowercase title is also
found in the lowercase combined text. -/

theorem isSubB_nil (l : Str) : isSubB [] l = true := by
  cases l <;> simp [isSubB, leadsB]

theorem leadsB_append {n a : Str} (b : Str) (h : leadsB n a = true) :
    leadsB n (a ++ b) = true := by
  induction n generalizing a with
  | nil => simp [leadsB]
  | cons x xs ih =>
    cases a with
    | nil => simp [leadsB] at h
    | cons y ys =>
      simp only [List.cons_append, leadsB, Bool.and_eq_true] at h ⊢
      exact ⟨h.1, ih h.2⟩

theorem isSubB_append {n a : Str} (b : Str) (h : isSubB n a = true) :
    isSubB n (a ++ b) = true := by
  induction a with
  | nil =>
    cases n with
    | nil => simpa using isSubB_nil b
    | cons x xs => simp [isSubB, leadsB] at h
  | cons y ys ih =>
    simp only [isSubB, Bool.or_eq_true] at h
    rcases h with h | h
    · simp only [List.cons_append, isSubB, Bool.or_eq_true]
      exact Or.inl (leadsB_append b h)
    · simp only [List.cons_append, isSubB, Bool.or_eq_true]
      exact Or.inr (ih h)

theorem scoreKeyword_eq_claim (t c kw : Str) :
    scoreKeyword (pyLower (t ++ ' ' :: c)) (pyLower t) kw
      = (if isSubB kw (pyLower t) then 3
         else if isSubB kw (pyLower (t ++ ' ' :: c)) then 1 else 0) := by
  unfold scoreKeyword
  by_cases h1 : isSubB kw (pyLower t) = true
  · have h2 : isSubB kw (pyLower (t ++ ' ' :: c)) = true := by
      have hsplit : pyLower (t ++ ' ' :: c) = pyLower t ++ pyLower (' ' :: c) := by
        unfold pyLower; exact List.map_append _ _ _
      rw [hsplit]
      exact isSubB_append _ h1
    simp [h1, h2]
  · simp [h1]

theorem claimScores_eq (t c : Str) : scoresList t c = claimScores t c := by
  have hfun : scoreKeyword (pyLower (t ++ ' ' :: c)) (pyLower t)
      = fun kw => if isSubB kw (pyLower t) then 3
                  else if isSubB kw (pyLower (t ++ ' ' :: c)) then 1 else 0 :=
    funext (fun kw => scoreKeyword_eq_claim t c kw)
  unfold scoresList claimScores catScore
  simp only [hfun]

theorem scoresList_ne_nil (t c : Str) : scoresList t c ≠ [] := by
  simp [scoresList, categories]

theorem codegen_mem_scoresList (t c : Str) :
    ∃ n : Nat, (( "codegen", n) : String × Nat) ∈ scoresList t c := by
  refine ⟨catScore t c ((categories.get ⟨1, by decide⟩).keywords), ?_⟩
  exact List.mem_map_of_mem (fun ci => (ci.name, catScore t c ci.keywords))
    (categories.get_mem 1 (by decide))

/-- Evaluation of `categorize_session` in terms of `pyMaxFirst` and
`maxVal`: with a positive maximum it returns the first-seen maximal
category and threshold-mapped confidence; with an all-zero score table
it returns the `codegen`/`low` default. -/
theorem categorize_eval (t c : Str) :
    (0 < maxVal (scoresList t c) →
        (categorize_session t c).1 = (pyMaxFirst (scoresList t c)).1)
    ∧ (0 < maxVal (scoresList t c) →
        (categorize_session t c).2
          = if 3 ≤ maxVal (scoresList t c) then "high"
            else if 1 ≤ maxVal (scoresList t c) then "medium" else "low")
    ∧ (maxVal (scoresList t c) = 0 → categorize_session t c = ( "codegen", "low")) := by
  refine ⟨?_, ?_, ?_⟩
  · intro h
    simp only [categorize_session]
    rw [if_pos h]
  · intro h
    simp only [categorize_session]
    rw [if_pos h]
    cases hs : scoresList t c with
    | nil => exact absurd hs (scoresList_ne_nil t c)
    | cons s rest =>
      rw [pyMaxFirst_snd s rest]
  · intro h
    simp only [categorize_session]
    rw [if_neg (by omega)]

/-- The returned category attains the maximal score. -/
theorem categorize_fst_attains (t c : Str) :
    ((categorize_session t c).1, maxVal (scoresList t c)) ∈ scoresList t c := by
  by_cases h : 0 < maxVal (scoresList t c)
  · cases hs : scoresList t c with
    | nil => exact absurd hs (scoresList_ne_nil t c)
    | cons s rest =>
      rw [(categorize_eval t c).1 h, hs, ← pyMaxFirst_snd s rest]
      exact pyMaxFirst_mem s rest
  · have h0 : maxVal (scoresList t c) = 0 := by omega
    have hcat : categorize_session t c = ( "codegen", "low") := (categorize_eval t c).2.2 h0
    obtain ⟨n, hmem⟩ := codegen_mem_scoresList t c
    have hn : n = 0 := by have := le_maxVal_of_mem hmem; omega
    rw [hcat, h0]
    rw [hn] at hmem
    exact hmem

/-- C1: for every `(title, content)` pair, the keyword classifier's
score table equals the spec's scoring rule (a keyword in the title
scores 3 instead of the generic 1, each scanning the lowercase combined
text), and the returned category attains the maximal total score. -/
theorem C1_keyword_scoring (t c : Str) :
    scoresList t c = claimScores t c
    ∧ ((categorize_session t c).1, maxVal (claimScores t c)) ∈ claimScores t c
    ∧ ∀ p ∈ claimScores t c, p.2 ≤ maxVal (claimScores t c) := by
  have hE := claimScores_eq t c
  refine ⟨hE, ?_, ?_⟩
  · rw [← hE]; exact categorize_fst_attains t c
  · rw [← hE]; exact fun p hp => le_maxVal_of_mem hp

/-- Instantiation of C1 on the spec's scenario: the returned category
`plan` attains the maximal score 10. -/
theorem C1_witness :
    (( "plan", 10) : String × Nat)
      ∈ claimScores ( "How To Plan The Approach".data) ( "I need a strategy for this".data) := by
  have h := (C1_keyword_scoring ( "How To Plan The Approach".data)
    ( "I need a strategy for this".data)).2.1
  have e : ((categorize_session ( "How To Plan The Approach".data)
        ( "I need a strategy for this".data)).1,
      maxVal (claimScores ( "How To Plan The Approach".data)
        ( "I need a strategy for this".data)))
      = (( "plan", 10) : String × Nat) := by decide
  rw [e] at h
  exact h

/-- C3: confidence is `high` for a winning score of at least 3, `medium`
for 1 or 2, and an all-zero score table defaults to `codegen`/`low`. -/
theorem C3_confidence_mapping (t c : Str) :
    (3 ≤ maxVal (scoresList t c) → (categorize_session t c).2 = "high")
    ∧ (1 ≤ maxVal (scoresList t c) → maxVal (scoresList t c) < 3 →
        (categorize_session t c).2 = "medium")
    ∧ (maxVal (scoresList t c) = 0 → categorize_session t c = ( "codegen", "low")) := by
  obtain ⟨he1, he2, he3⟩ := categorize_eval t c
  refine ⟨?_, ?_, he3⟩
  · intro h3
    rw [he2 (by omega), if_pos h3]
  · intro h1 h3
    rw [he2 (by omega), if_neg (by omega), if_pos h1]

/-- Instantiation of C3 on the spec's scenario: winning score 10 yields
confidence `high`. -/
theorem C3_witness :
    (categorize_session ( "How To Plan The Approach".data)
      ( "I need a strategy for this".data)).2 = "high" :=
  (C3_confidence_mapping ( "How To Plan The Approach".data)
    ( "I need a strategy for this".data)).1 (by decide)

/-- Counterexample to C8 as stated: with no keyword matched, all eight
categories tie at score 0; the first-seen maximal category in
enumeration order is `plan`, but the code returns `codegen`. -/
theorem C8_counterexample :
    categorize_session ( "zzz".data) ( "qqq".data) = ( "codegen", "low")
    ∧ ((scoresList ( "zzz".data) ( "qqq".data)).find?
        (fun p => decide (p.2 = maxVal (scoresList ( "zzz".data) ( "qqq".data))))).map Prod.fst
        = some "plan"
    ∧ ( "codegen" : String) ≠ "plan" := by
  refine ⟨by decide, by decide, by decide⟩

/-- C8 (amended): keyword classification is a pure function of
`(title, content)` (identical inputs yield identical results); the
enumeration order is the fixed list `plan, codegen, refactor, debug,
feature, review, meta, config`; a tie at a positive winning score is
resolved to the first-seen maximal category in that order; an all-zero
score table instead returns the `codegen` default. -/
theorem C8_amended (t₁ c₁ t₂ c₂ : Str) (h₁ : t₁ = t₂) (h₂ : c₁ = c₂) :
    categorize_session t₁ c₁ = categorize_session t₂ c₂
    ∧ categories.map CatInfo.name
        = [ "plan", "codegen", "refactor", "debug", "feature", "review", "meta", "config"]
    ∧ (0 < maxVal (scoresList t₁ c₁) →
        (scoresList t₁ c₁).find? (fun p => decide (p.2 = maxVal (scoresList t₁ c₁)))
          = some ((categorize_session t₁ c₁).1, maxVal (scoresList t₁ c₁)))
    ∧ (maxVal (scoresList t₁ c₁) = 0 →
        categorize_session t₁ c₁ = ( "codegen", "low")) := by
  subst h₁; subst h₂
  obtain ⟨he1, _, he3⟩ := categorize_eval t₁ c₁
  refine ⟨rfl, by decide, ?_, he3⟩
  intro h
  have hcongr : (scoresList t₁ c₁).find?
        (fun p => decide (p.2 = maxVal (scoresList t₁ c₁)))
      = (scoresList t₁ c₁).find?
        (fun p => decide (maxVal (scoresList t₁ c₁) ≤ p.2)) := by
    apply find?_congr_mem
    intro x hx
    have hle := le_maxVal_of_mem hx
    exact decide_eq_decide.mpr (by omega)
  rw [hcongr, find?_pyMaxFirst (scoresList t₁ c₁) h, he1 h]
  cases hs : scoresList t₁ c₁ with
  | nil => exact absurd hs (scoresList_ne_nil t₁ c₁)
  | cons s rest => rw [← pyMaxFirst_snd s rest]

/-- Instantiation of C8 (amended) at a positive two-way tie
(`refactor` and `debug` both score 1): the first-seen maximal category
`refactor` is returned. -/
theorem C8_amended_witness :
    (scoresList ( "Zzz".data) ( "improve error".data)).find?
        (fun p => decide (p.2 = maxVal (scoresList ( "Zzz".data) ( "improve error".data))))
      = some (( "refactor" : String), 1) := by
  have h := (C8_amended ( "Zzz".data) ( "improve error".data)
    ( "Zzz".data) ( "improve error".data) rfl rfl).2.2.1 (by decide)
  rw [h]
  decide

/-! Lemmas about the duration-assignment loop. -/

theorem assign_length (l : List Session) :
    (assignDurations l).length = l.length := by
  induction l with
  | nil => rfl
  | cons s t ih =>
    cases t with
    | nil => rfl
    | cons s' rest => simp [assignDurations] at ih ⊢; omega

theorem assign_startTime (l : List Session) :
    (assignDurations l).map Session.startTime = l.map Session.startTime := by
  induction l with
  | nil => rfl
  | cons s t ih =>
    cases t with
    | nil => rfl
    | cons s' rest =>
      simp only [assignDurations, List.map_cons] at ih ⊢
      rw [ih]

theorem assign_eraseDur (l : List Session) :
    (assignDurations l).map eraseDur = l.map eraseDur := by
  induction l with
  | nil => rfl
  | cons s t ih =>
    cases t with
    | nil => rfl
    | cons s' rest =>
      simp only [assignDurations, List.map_cons] at ih ⊢
      rw [ih]
      rfl

theorem assign_getD (l : List Session) :
    ∀ i : Nat, i + 1 < l.length →
      (assignDurations l).getD i default
        = { l.getD i default with
            duration := min (((l.getD (i+1) default).startTime
                - (l.getD i default).startTime).tdiv 60) 240 } := by
  induction l with
  | nil => intro i h; simp at h
  | cons s t ih =>
    intro i h
    cases t with
    | nil => simp at h
    | cons s' rest =>
      cases i with
      | zero => rfl
      | succ j =>
        have h' : j + 1 < (s' :: rest).length := by
          simpa using h
        simp only [assignDurations, List.getD_cons_succ]
        exact ih j h'

theorem assign_getD_startTime (l : List Session) :
    ∀ j : Nat, ((assignDurations l).getD j default).startTime
      = (l.getD j default).startTime := by
  induction l with
  | nil => intro j; rfl
  | cons s t ih =>
    intro j
    cases t with
    | nil =>
      cases j with
      | zero => rfl
      | succ k => rfl
    | cons b rest =>
      cases j with
      | zero => rfl
      | succ k =>
        simp only [assignDurations, List.getD_cons_succ]
        exact ih k

theorem assign_cons_shape (b : Session) (rest : List Session) :
    ∃ x xs, assignDurations (b :: rest) = x :: xs := by
  cases rest with
  | nil => exact ⟨_, _, rfl⟩
  | cons c cs => exact ⟨_, _, rfl⟩

theorem assign_getLast? (l : List Session) :
    ∀ s : Session, (assignDurations l).getLast? = some s → s.duration = 30 := by
  induction l with
  | nil => intro s h; simp [assignDurations] at h
  | cons a t ih =>
    intro s h
    cases t with
    | nil =>
      simp only [assignDurations, List.getLast?_singleton, Option.some.injEq] at h
      rw [← h]
    | cons b rest =>
      obtain ⟨x, xs, hx⟩ := assign_cons_shape b rest
      simp only [assignDurations] at h
      rw [hx, List.getLast?_cons_cons] at h
      exact ih s (by rw [hx]; exact h)

theorem sorted_assign {l : List Session} (h : List.Sorted byStart l) :
    List.Sorted byStart (assignDurations l) := by
  have h0 : List.Pairwise (fun a b : Session => a.startTime ≤ b.startTime) l := h
  have h2 : List.Pairwise (fun a b : Int => a ≤ b) (l.map Session.startTime) :=
    (List.pairwise_map (f := Session.startTime)).mpr h0
  rw [← assign_startTime l] at h2
  exact (List.pairwise_map (f := Session.startTime)).mp h2

theorem assign_mem_bounds (l : List Session) (hs : List.Sorted byStart l) :
    ∀ s ∈ assignDurations l, 0 ≤ s.duration ∧ s.duration ≤ 240 := by
  induction l with
  | nil => intro s h; cases h
  | cons a t ih =>
    obtain ⟨hrel, htail⟩ := List.sorted_cons.mp hs
    intro s h
    cases t with
    | nil =>
      simp only [assignDurations, List.mem_singleton] at h
      rw [h]
      exact ⟨by norm_num, by norm_num⟩
    | cons b rest =>
      simp only [assignDurations, List.mem_cons] at h
      rcases h with h | h
      · rw [h]
        refine ⟨?_, ?_⟩
        · have hab : a.startTime ≤ b.startTime :=
            hrel b (List.mem_cons_self b rest)
          have hdiv : 0 ≤ (b.startTime - a.startTime).tdiv 60 :=
            Int.tdiv_nonneg (by omega) (by norm_num)
          exact le_min hdiv (by norm_num)
        · exact min_le_right _ _
      · exact ih htail s h

/-- C2: `calculate_durations` sorts ascending by `startTime` (its output
is sorted and is a duration-reset permutation of the input); every
record but the last then gets `min` of 240 and the whole minutes to the
next record's start, and the last record gets exactly 30. -/
theorem C2_duration_calculator (ss : List Session) :
    List.Sorted byStart (calculate_durations ss)
    ∧ List.Perm ((calculate_durations ss).map eraseDur) (ss.map eraseDur)
    ∧ (∀ i : Nat, i + 1 < (calculate_durations ss).length →
        ((calculate_durations ss).getD i default).duration
          = min ((((calculate_durations ss).getD (i+1) default).startTime
              - ((calculate_durations ss).getD i default).startTime).tdiv 60) 240)
    ∧ (∀ s : Session, (calculate_durations ss).getLast? = some s → s.duration = 30) := by
  unfold calculate_durations
  refine ⟨?_, ?_, ?_, ?_⟩
  · exact sorted_assign (List.sorted_insertionSort byStart ss)
  · rw [assign_eraseDur]
    exact (List.perm_insertionSort byStart ss).map eraseDur
  · intro i h
    rw [assign_length] at h
    rw [assign_getD _ i h, assign_getD_startTime]
  · exact assign_getLast? _

/-- Instantiation of C2: two sessions 45 minutes apart (given out of
order) — the earlier one gets duration 45. -/
theorem C2_witness :
    ((calculate_durations [exB, exA]).getD 0 default).duration = 45 := by
  have h := (C2_duration_calculator [exB, exA]).2.2.1 0 (by decide)
  rw [h]
  decide

/-- C10: after `calculate_durations`, every record's duration lies in
`[0, 240]`: gaps are computed on the list sorted ascending by
`startTime`, so no negative gap can occur. -/
theorem C10_duration_bounds (ss : List Session) (s : Session)
    (h : s ∈ calculate_durations ss) : 0 ≤ s.duration ∧ s.duration ≤ 240 :=
  assign_mem_bounds (List.insertionSort byStart ss)
    (List.sorted_insertionSort byStart ss) s h

/-- Instantiation of C10 at the two-session example. -/
theorem C10_witness :
    (0 : Int) ≤ ({ exA with duration := 45 } : Session).duration
    ∧ ({ exA with duration := 45 } : Session).duration ≤ 240 :=
  C10_duration_bounds [exB, exA] _ (by decide)

/-! Lemmas for the total-duration partition argument of C4. -/

theorem sum_map_zero (names : List String) :
    (names.map (fun _ => (0 : Int))).sum = 0 := by
  induction names with
  | nil => rfl
  | cons a t ih => simp [ih]

theorem map_add_sum (names : List String) (f g : String → Int) :
    (names.map (fun n => f n + g n)).sum = (names.map f).sum + (names.map g).sum := by
  induction names with
  | nil => simp
  | cons a as ih =>
    simp only [List.map_cons, List.sum_cons, ih]
    ring

theorem sum_ite_zero (as : List String) (x : String) (hx : x ∉ as) (d : Int) :
    (as.map (fun n => if x == n then d else 0)).sum = 0 := by
  induction as with
  | nil => rfl
  | cons a t ih =>
    have hxt : x ∉ t := fun hm => hx (List.mem_cons_of_mem a hm)
    have hne : x ≠ a := fun he => hx (he ▸ List.mem_cons_self a t)
    simp only [List.map_cons, List.sum_cons]
    rw [if_neg (by simpa using hne), ih hxt]
    simp

theorem sum_ite_single (names : List String) (hnodup : names.Nodup) (x : String)
    (hx : x ∈ names) (d : Int) :
    (names.map (fun n => if x == n then d else 0)).sum = d := by
  induction names with
  | nil => cases hx
  | cons a as ih =>
    rcases List.mem_cons.mp hx with h | h
    · subst h
      have hxas : x ∉ as := (List.nodup_cons.mp hnodup).1
      simp only [List.map_cons, List.sum_cons]
      rw [sum_ite_zero as x hxas d]
      simp
    · have hne : x ≠ a := by
        intro he
        subst he
        exact (List.nodup_cons.mp hnodup).1 h
      simp only [List.map_cons, List.sum_cons]
      rw [if_neg (by simpa using hne), ih (List.nodup_cons.mp hnodup).2 h]
      simp

theorem catDuration_cons (s : Session) (rest : List Session) (n : String) :
    catDuration (s :: rest) n
      = (if s.category == n then s.duration else 0) + catDuration rest n := by
  unfold catDuration
  rw [List.filter_cons]
  by_cases hc : (s.category == n) = true
  · rw [if_pos hc, if_pos hc]
    simp
  · rw [if_neg hc, if_neg hc]
    simp

theorem sum_catDuration (names : List String) (hnodup : names.Nodup) :
    ∀ ss : List Session, (∀ s ∈ ss, s.category ∈ names) →
      (names.map (catDuration ss)).sum = total_duration ss := by
  intro ss
  induction ss with
  | nil =>
    intro _
    have h0 : catDuration ([] : List Session) = fun _ => (0 : Int) := by
      funext n; rfl
    rw [h0, sum_map_zero]
    rfl
  | cons s rest ih =>
    intro hmem
    have hsplit : catDuration (s :: rest)
        = fun n => (if s.category == n then s.duration else 0) + catDuration rest n := by
      funext n; exact catDuration_cons s rest n
    rw [hsplit,
      map_add_sum names (fun n => if s.category == n then s.duration else 0)
        (catDuration rest),
      ih (fun x hx => hmem x (List.mem_cons_of_mem s hx)),
      sum_ite_single names hnodup s.category (hmem s (List.mem_cons_self s rest)) s.duration]
    simp [total_duration]

theorem filterMap_dur_sum (ss : List Session) (total : Int) (cats : List CatInfo) :
    ((cats.filterMap (catStatsEntry ss total)).map (fun p => p.2.duration)).sum
      = (cats.map (fun ci => catDuration ss ci.name)).sum := by
  induction cats with
  | nil => rfl
  | cons ci rest ih =>
    cases hE : catStatsEntry ss total ci with
    | none =>
      rw [List.filterMap_cons_none hE]
      have h0 : catDuration ss ci.name = 0 := by
        unfold catStatsEntry at hE
        by_cases hc : (ss.filter (fun s => s.category == ci.name)).isEmpty = true
        · unfold catDuration
          rw [List.isEmpty_iff.mp hc]
          rfl
        · rw [if_neg hc] at hE
          cases hE
      simp only [List.map_cons, List.sum_cons, h0, ih]
      omega
    | some pr =>
      rw [List.filterMap_cons_some hE]
      have hd : pr.2.duration = catDuration ss ci.name := by
        unfold catStatsEntry at hE
        by_cases hc : (ss.filter (fun s => s.category == ci.name)).isEmpty = true
        · rw [if_pos hc] at hE
          cases hE
        · rw [if_neg hc] at hE
          rw [← Option.some.inj hE]
      simp only [List.map_cons, List.sum_cons]
      rw [hd, ih]

/-- C4: when every session's category lies in the fixed category table
(the data-model invariant), the sum of the `duration` fields of the
emitted `category_stats` entries equals `total_duration`; categories
with no sessions are omitted and contribute nothing. -/
theorem C4_stats_sum (ss : List Session)
    (h : ∀ s ∈ ss, s.category ∈ categories.map CatInfo.name) :
    ((category_stats ss).map (fun p => p.2.duration)).sum = total_duration ss := by
  unfold category_stats
  rw [filterMap_dur_sum]
  have hmap : categories.map (fun ci => catDuration ss ci.name)
      = (categories.map CatInfo.name).map (catDuration ss) := by
    rw [List.map_map]
    rfl
  rw [hmap]
  exact sum_catDuration (categories.map CatInfo.name) (by decide) ss h

/-- Instantiation of C4 on a two-session list. -/
theorem C4_witness :
    ((category_stats [ { exA with duration := 45 }, { exB with duration := 30 } ]).map
        (fun p => p.2.duration)).sum
      = total_duration [ { exA with duration := 45 }, { exB with duration := 30 } ] :=
  C4_stats_sum _ (by decide)

/-- Counterexample to C5 as stated: `re.match` has no end anchor, so
`2024-01-15_09-30Z-title.mdx` — which does not match the anchored
pattern `<YYYY-MM-DD>_<HH-MM>Z-<title-slug>.md` — is nevertheless
parsed without error; conversely `2024-13-45_09-30Z-t.md` has the
anchored digit shape but raises (month 13, day 45 fail
`fromisoformat`). -/
theorem C5_counterexample :
    ((parse_filename ( "2024-01-15_09-30Z-title.mdx".data)).isOk = true
      ∧ specPatternMatch ( "2024-01-15_09-30Z-title.mdx".data) = false)
    ∧ ((parse_filename ( "2024-13-45_09-30Z-t.md".data)).isOk = false
      ∧ specPatternMatch ( "2024-13-45_09-30Z-t.md".data) = true) := by
  refine ⟨⟨?_, ?_⟩, ?_, ?_⟩ <;> decide

/-- C5 (amended): `parse_filename` succeeds exactly when the regex
matches as a prefix (fixed digit shape, then a nonempty newline-free
slug cut at the last following `.md`; trailing characters are ignored)
and the matched fields form a valid timestamp; on success it returns
the UTC timestamp built from the digit fields and the dash-to-space,
title-cased slug. -/
theorem C5_parse_filename (f : Str) :
    ((parse_filename f).isOk = true
      ↔ ∃ y mo d h mi rest, matchFixed f = some (y, mo, d, h, mi, rest)
          ∧ (slugSplit rest).isSome = true ∧ validDT y mo d h mi = true)
    ∧ (∀ y mo d h mi rest slug,
        matchFixed f = some (y, mo, d, h, mi, rest) →
        slugSplit rest = some slug →
        validDT y mo d h mi = true →
        parse_filename f
          = Except.ok ( { year := y, month := mo, day := d, hour := h, minute := mi }
                      , pyTitle (slug.map (fun ch => if ch == '-' then ' ' else ch)))) := by
  constructor
  · constructor
    · intro hok
      cases hm : matchFixed f with
      | none => simp [parse_filename, hm, Except.isOk, Except.toBool] at hok
      | some v =>
        obtain ⟨y, mo, d, h, mi, rest⟩ := v
        cases hs : slugSplit rest with
        | none => simp [parse_filename, hm, hs, Except.isOk, Except.toBool] at hok
        | some slug =>
          by_cases hv : validDT y mo d h mi = true
          · exact ⟨y, mo, d, h, mi, rest, rfl, by simp [hs], hv⟩
          · simp [parse_filename, hm, hs, hv, Except.isOk, Except.toBool] at hok
    · rintro ⟨y, mo, d, h, mi, rest, hm, hs, hv⟩
      obtain ⟨slug, hslug⟩ := Option.isSome_iff_exists.mp hs
      simp [parse_filename, hm, hslug, hv, Except.isOk, Except.toBool]
  · intro y mo d h mi rest slug hm hs hv
    simp [parse_filename, hm, hs, hv]

/-- Instantiation of C5 (amended) on the spec's scenario filename. -/
theorem C5_witness :
    (parse_filename ( "2024-01-15_09-30Z-how-to-plan-the-approach.md".data)).isOk = true :=
  (C5_parse_filename ( "2024-01-15_09-30Z-how-to-plan-the-approach.md".data)).1.mpr
    ⟨2024, 1, 15, 9, 30, ( "how-to-plan-the-approach.md".data),
      by rfl, by rfl, by rfl⟩

/-- C6: the keyword-path preview is the content itself when its length
is at most 120 characters, and otherwise the first 117 characters
followed by `...`, 120 characters in total. -/
theorem C6_preview (content : Str) :
    (content.length ≤ 120 → keywordPreview content = content)
    ∧ (120 < content.length →
        keywordPreview content = content.take 117 ++ "...".data
        ∧ (keywordPreview content).length = 120) := by
  constructor
  · intro h
    unfold keywordPreview
    rw [if_neg (by omega)]
  · intro h
    have he : keywordPreview content = content.take 117 ++ "...".data := by
      unfold keywordPreview
      rw [if_pos (by omega)]
    refine ⟨he, ?_⟩
    rw [he, List.length_append, List.length_take]
    have h3 : ( "...".data).length = 3 := rfl
    omega

/-- Instantiation of C6 at a 130-character content. -/
theorem C6_witness :
    keywordPreview longContent = longContent.take 117 ++ "...".data
    ∧ (keywordPreview longContent).length = 120 :=
  (C6_preview longContent).2 (by simp [longContent])

/-- C7: an external-classifier response carrying all three fields whose
category lies outside the fixed table yields a session with category
`codegen`, confidence `high`, and the response's title and preview
verbatim. -/
theorem C7_out_of_range_category (j : AiJson) (fname : Str) (ts : Int)
    (title content : Str) (cat : String) (ti pv : Str)
    (hc : j.categoryField = some cat)
    (ht : j.titleField = some ti)
    (hp : j.previewField = some pv)
    (hout : cat ∉ categories.map CatInfo.name) :
    assembleSession fname ts title content (normalize_ai j)
      = { category := "codegen", title := ti, startTime := ts
        , confidence := "high", filename := fname, preview := pv, duration := 0 } := by
  have hn : normalize_ai j = some { category := "codegen", title := ti, preview := pv } := by
    simp [normalize_ai, hc, ht, hp, hout]
  rw [hn]
  rfl

/-- Instantiation of C7 at the spec's `unknown_type` scenario. -/
theorem C7_witness :
    assembleSession ( "f.md".data) 0 ( "T".data) ( "c".data)
        (normalize_ai { categoryField := some "unknown_type"
                      , titleField := some ( "Verbatim Title".data)
                      , previewField := some ( "Verbatim preview".data) })
      = { category := "codegen", title := "Verbatim Title".data, startTime := 0
        , confidence := "high", filename := "f.md".data
        , preview := "Verbatim preview".data, duration := 0 } :=
  C7_out_of_range_category _ _ _ _ _ _ _ _ rfl rfl rfl (by decide)

/-- C9: on the empty input sequence the produced document has no
sessions, total duration 0, an empty category mapping and a null time
range; and the percentage computation returns 0 whenever the total
duration is not positive, so a zero total never divides. -/
theorem C9_empty_input (ai : Str → Int → Str → Option AiData) :
    parse_all_files ai []
      = { sessions := [], totalDuration := 0, categories := []
        , totalSessions := 0, timeStart := none, timeEnd := none }
    ∧ ∀ dur : Int, pctOf 0 dur = 0 := by
  constructor
  · rfl
  · intro dur
    rfl

end SpecHistory
